import Mathlib

/-!
Verification of the markdocify crawl-and-aggregate pipeline.

This file shallowly embeds the core functions of the repository
(`internal/aggregator/aggregator.go`, `internal/scraper/scraper.go`,
`internal/converter/converter.go`) as executable Lean definitions and
proves the specified properties about them.

Modelling conventions:
* Go strings are modelled as Lean `String` / `List Char`.  Go compares
  strings byte-wise on their UTF-8 encoding; UTF-8 byte order coincides
  with code-point order, so Lean `String` comparison is a faithful model.
* Go `int64` values are modelled as `Int` with explicit wrap-around
  (two-s complement) where overflow matters.
* External library primitives (crypto/sha256, compiled regexps of the
  user configuration, bluemonday policies, the colly fetcher) are taken
  as parameters or modelled at their documented interface, as noted at
  each definition.
-/

namespace Markdocify

/-! ### Aggregator data model (internal/aggregator/aggregator.go) -/

/-- One extracted page, as stored by the aggregator
(`aggregator.go`, type `Page`; the informational `Timestamp` field is
omitted since no claim mentions it). -/
structure Page where
  URL : String
  Title : String
  Content : String
  Depth : Nat
deriving DecidableEq

/-- The mutable state of an `Aggregator`: the page list and the set of
content hashes already seen (`aggregator.go`, type `Aggregator`).  The
Go `map[string]bool` is modelled as the list of keys inserted so far;
insertion order is irrelevant to membership. -/
structure AggState where
  pages : List Page
  contentHashes : List String
deriving DecidableEq

/-- A fresh aggregator as returned by `aggregator.New`. -/
def AggState.empty : AggState := ⟨[], []⟩

/-- One call of `Aggregator.AddPage`. -/
structure AddCall where
  url : String
  title : String
  content : String
  depth : Nat
deriving DecidableEq

/-- `Aggregator.AddPage` (aggregator.go lines 41-67).  The content hash
`fmt.Sprintf("%x", sha256.Sum256([]byte(content)))` is an external
crypto/sha256 primitive and is abstracted as the parameter `hash`; the
dedup logic is independent of the hash function used.  The memory
warning at 1000 pages only prints and does not change state. -/
def AddPage (hash : String → String) (s : AggState)
    (url title content : String) (depth : Nat) : AggState :=
  let contentHash := hash content
  if s.contentHashes.contains contentHash then
    s
  else
    { pages := s.pages ++ [⟨url, title, content, depth⟩],
      contentHashes := s.contentHashes ++ [contentHash] }

/-- Run a sequence of `AddPage` calls against a fresh aggregator. -/
def runAdds (hash : String → String) (calls : List AddCall) : AggState :=
  calls.foldl (fun s c => AddPage hash s c.url c.title c.content c.depth) AggState.empty

/-- Invariant maintained by `AddPage`: the recorded hash set is exactly
the (duplicate-free) list of hashes of the retained pages. -/
def AggInv (hash : String → String) (s : AggState) : Prop :=
  s.contentHashes = s.pages.map (fun p => hash p.Content) ∧ s.contentHashes.Nodup

theorem contains_iff_mem {α : Type} [BEq α] [LawfulBEq α] {l : List α} {a : α} :
    l.contains a = true ↔ a ∈ l := by
  simp [List.contains, List.elem_iff]

theorem addPage_preserves_inv (hash : String → String) (s : AggState)
    (url title content : String) (depth : Nat) (h : AggInv hash s) :
    AggInv hash (AddPage hash s url title content depth) := by
  obtain ⟨h1, h2⟩ := h
  unfold AddPage
  by_cases hc : s.contentHashes.contains (hash content) = true
  · rw [if_pos hc]
    exact ⟨h1, h2⟩
  · rw [if_neg hc]
    refine ⟨?_, ?_⟩
    · simp [h1]
    · rw [List.nodup_append]
      refine ⟨h2, List.nodup_singleton _, ?_⟩
      intro a ha hb
      simp only [List.mem_singleton] at hb
      subst hb
      exact hc (by exact contains_iff_mem.mpr ha)

theorem runAdds_foldl_inv (hash : String → String) (calls : List AddCall)
    (s : AggState) (h : AggInv hash s) :
    AggInv hash (calls.foldl (fun s c => AddPage hash s c.url c.title c.content c.depth) s) := by
  induction calls generalizing s with
  | nil => exact h
  | cons c cs ih =>
      exact ih _ (addPage_preserves_inv hash s c.url c.title c.content c.depth h)

theorem runAdds_inv (hash : String → String) (calls : List AddCall) :
    AggInv hash (runAdds hash calls) :=
  runAdds_foldl_inv hash calls AggState.empty ⟨rfl, List.nodup_nil⟩

/-- C1: content-hash deduplication is first-writer-wins.  For every
sequence of `AddPage` calls: (a) the retained pages have pairwise
distinct content hashes (at most one `Page` per distinct hash); (b) a
further call whose content hash is already present returns with the
state completely unchanged, regardless of its url, title or depth; (c) a
further call presenting a fresh hash appends exactly the new `Page`. -/
theorem addPage_firstWriterWins (hash : String → String) (calls : List AddCall) :
    ((runAdds hash calls).pages.map (fun p => hash p.Content)).Nodup ∧
    ∀ c : AddCall,
      (hash c.content ∈ (runAdds hash calls).pages.map (fun p => hash p.Content) →
        runAdds hash (calls ++ [c]) = runAdds hash calls) ∧
      (hash c.content ∉ (runAdds hash calls).pages.map (fun p => hash p.Content) →
        (runAdds hash (calls ++ [c])).pages
          = (runAdds hash calls).pages ++ [⟨c.url, c.title, c.content, c.depth⟩]) := by
  obtain ⟨hinv, hnd⟩ := runAdds_inv hash calls
  constructor
  · rw [← hinv]; exact hnd
  · intro c
    have hrun : runAdds hash (calls ++ [c])
        = AddPage hash (runAdds hash calls) c.url c.title c.content c.depth := by
      unfold runAdds
      rw [List.foldl_append]
      rfl
    constructor
    · intro hmem
      rw [hrun]
      unfold AddPage
      have hc : (runAdds hash calls).contentHashes.contains (hash c.content) = true := by
        rw [contains_iff_mem, hinv]
        exact hmem
      rw [if_pos hc]
    · intro hmem
      rw [hrun]
      unfold AddPage
      have hc : ¬ (runAdds hash calls).contentHashes.contains (hash c.content) = true := by
        rw [contains_iff_mem, hinv]
        exact hmem
      rw [if_neg hc]

/-- Witness for C1: with two concrete calls carrying byte-identical
content, the second call leaves the state unchanged (duplicate case),
and with fresh content the page is appended (fresh case). -/
theorem addPage_firstWriterWins_witness :
    runAdds (fun s => s) ([⟨"https://a", "A", "same", 0⟩] ++ [⟨"https://b", "B", "same", 3⟩])
        = runAdds (fun s => s) [⟨"https://a", "A", "same", 0⟩] ∧
    (runAdds (fun s => s) ([⟨"https://a", "A", "same", 0⟩] ++ [⟨"https://b", "B", "new", 3⟩])).pages
        = (runAdds (fun s => s) [⟨"https://a", "A", "same", 0⟩]).pages
            ++ [⟨"https://b", "B", "new", 3⟩] :=
  ⟨((addPage_firstWriterWins (fun s => s) [⟨"https://a", "A", "same", 0⟩]).2
      ⟨"https://b", "B", "same", 3⟩).1 (by decide),
   ((addPage_firstWriterWins (fun s => s) [⟨"https://a", "A", "same", 0⟩]).2
      ⟨"https://b", "B", "new", 3⟩).2 (by decide)⟩

/-! ### Retry with backoff (internal/scraper/scraper.go, visitWithRetry) -/

/-- Reinterpret an integer as a two-s complement signed 64-bit value,
modelling Go `int64` arithmetic results. -/
def wrap64 (x : Int) : Int :=
  let m := x % (18446744073709551616 : Int)
  if m < 9223372036854775808 then m else m - 18446744073709551616

/-- The duration argument (in nanoseconds) passed to `time.Sleep` after
failed attempt `i` (scraper.go lines 527-529):
`backoff := time.Duration(math.Pow(2, float64(i))) * DefaultBackoffBase;
if backoff > MaxBackoffDelay { backoff = MaxBackoffDelay }` with
`DefaultBackoffBase = 1s = 10^9 ns` and `MaxBackoffDelay = 30s`.
`math.Pow(2, i)` is the exact float 2^i and its conversion to the
`int64`-backed `time.Duration` is exact for `i ≤ 62` (beyond that Go
leaves the conversion implementation-defined; this model is only used
for `i ≤ 62`).  The multiplication by 10^9 is Go `int64` multiplication,
which wraps around on overflow. -/
def backoffArgNs (i : Nat) : Int :=
  let p := wrap64 ((2 : Int) ^ i)
  let b := wrap64 (p * 1000000000)
  if b > 30000000000 then 30000000000 else b

/-- Result of a `visitWithRetry` run: number of underlying fetch
attempts performed, the arguments of the `time.Sleep` calls in order,
and the returned value (`.error (maxRetries, lastErr)` models the Go
wrapped error `fmt.Errorf("failed after %d retries: %w", maxRetries,
lastErr)`). -/
instance {ε α : Type} [DecidableEq ε] [DecidableEq α] : DecidableEq (Except ε α) := fun x y =>
  match x, y with
  | .ok a, .ok b =>
      if h : a = b then isTrue (by rw [h]) else isFalse (fun hc => by cases hc; exact h rfl)
  | .error a, .error b =>
      if h : a = b then isTrue (by rw [h]) else isFalse (fun hc => by cases hc; exact h rfl)
  | .ok _, .error _ => isFalse (fun hc => by cases hc)
  | .error _, .ok _ => isFalse (fun hc => by cases hc)

structure RetryResult where
  attempts : Nat
  sleeps : List Int
  result : Except (Nat × Option Nat) Unit
deriving DecidableEq

/-- The loop body of `visitWithRetry` (scraper.go lines 521-551),
starting at attempt index `i` with `rem = maxRetries - i` iterations
left.  The fetch collaborator `s.collector.Visit` is the parameter
`fetch : Nat → Option Nat` giving for each 0-indexed attempt `none`
(success) or `some e` (the fetch error).  A failed attempt sleeps only
when it is not the last one. -/
def visitLoop (fetch : Nat → Option Nat) (maxR : Nat) : Nat → Nat → RetryResult
  | _, 0 => ⟨0, [], .error (maxR, none)⟩
  | i, 1 =>
      match fetch i with
      | none => ⟨1, [], .ok ()⟩
      | some e => ⟨1, [], .error (maxR, some e)⟩
  | i, rem + 2 =>
      match fetch i with
      | none => ⟨1, [], .ok ()⟩
      | some _ =>
          let r := visitLoop fetch maxR (i + 1) (rem + 1)
          ⟨r.attempts + 1, backoffArgNs i :: r.sleeps, r.result⟩

/-- `Scraper.visitWithRetry(url, maxRetries)`; the url is implicit in
the `fetch` collaborator. -/
def visitWithRetry (fetch : Nat → Option Nat) (maxRetries : Nat) : RetryResult :=
  visitLoop fetch maxRetries 0 maxRetries

theorem backoffArgNs_eq_min (k : Nat) (hk : k ≤ 33) :
    backoffArgNs k = min ((2 : Int) ^ k * 1000000000) 30000000000 := by
  have h2 : (0 : Int) < 2 ^ k := by positivity
  have hle : (2 : Int) ^ k ≤ 2 ^ 33 :=
    pow_le_pow_right₀ (by norm_num) hk
  have hlt : (2 : Int) ^ k < 9223372036854775808 := by
    calc (2 : Int) ^ k ≤ 2 ^ 33 := hle
    _ < 9223372036854775808 := by norm_num
  have hw1 : wrap64 ((2 : Int) ^ k) = 2 ^ k := by
    unfold wrap64
    rw [Int.emod_eq_of_lt (by positivity) (by omega)]
    simp only []
    rw [if_pos (by omega)]
  have hlt2 : (2 : Int) ^ k * 1000000000 < 9223372036854775808 := by
    have : (2 : Int) ^ k * 1000000000 ≤ 2 ^ 33 * 1000000000 := by
      exact mul_le_mul_of_nonneg_right hle (by norm_num)
    omega
  have hw2 : wrap64 ((2 : Int) ^ k * 1000000000) = 2 ^ k * 1000000000 := by
    unfold wrap64
    rw [Int.emod_eq_of_lt (by positivity) (by omega)]
    simp only []
    rw [if_pos (by omega)]
  unfold backoffArgNs
  simp only [hw1, hw2]
  rcases le_or_lt ((2 : Int) ^ k * 1000000000) 30000000000 with h | h
  · rw [if_neg (by omega), min_eq_left h]
  · rw [if_pos h, min_eq_right (le_of_lt h)]

theorem visitLoop_spec (fetch : Nat → Option Nat) (maxR : Nat) (rem : Nat) :
    ∀ i, 1 ≤ rem →
    (1 ≤ (visitLoop fetch maxR i rem).attempts ∧ (visitLoop fetch maxR i rem).attempts ≤ rem) ∧
    (visitLoop fetch maxR i rem).sleeps.length = (visitLoop fetch maxR i rem).attempts - 1 ∧
    (∀ k, (hk : k < (visitLoop fetch maxR i rem).sleeps.length) →
        (visitLoop fetch maxR i rem).sleeps.get ⟨k, hk⟩ = backoffArgNs (i + k)) ∧
    (∀ k, k < rem → (∀ m, m < k → fetch (i + m) ≠ none) → fetch (i + k) = none →
        (visitLoop fetch maxR i rem).result = .ok () ∧
        (visitLoop fetch maxR i rem).attempts = k + 1) ∧
    ((∀ k, k < rem → fetch (i + k) ≠ none) →
        (visitLoop fetch maxR i rem).attempts = rem ∧
        ∃ e, fetch (i + (rem - 1)) = some e ∧
          (visitLoop fetch maxR i rem).result = .error (maxR, some e)) := by
  induction rem with
  | zero => intro i h; omega
  | succ m ih =>
    intro i _
    cases m with
    | zero =>
        simp only [Nat.zero_add]
        cases hfi : fetch i with
        | none =>
            have hA : (visitLoop fetch maxR i 1).attempts = 1 := by simp [visitLoop, hfi]
            have hS : (visitLoop fetch maxR i 1).sleeps = [] := by simp [visitLoop, hfi]
            have hR : (visitLoop fetch maxR i 1).result = .ok () := by simp [visitLoop, hfi]
            refine ⟨⟨by omega, by omega⟩, by simp [hS, hA], ?_, ?_, ?_⟩
            · intro k hk; rw [hS] at hk; simp at hk
            · intro k hk _ _
              interval_cases k
              exact ⟨hR, by omega⟩
            · intro hall
              exact absurd hfi (by simpa using hall 0 (by omega))
        | some e =>
            have hA : (visitLoop fetch maxR i 1).attempts = 1 := by simp [visitLoop, hfi]
            have hS : (visitLoop fetch maxR i 1).sleeps = [] := by simp [visitLoop, hfi]
            have hR : (visitLoop fetch maxR i 1).result = .error (maxR, some e) := by
              simp [visitLoop, hfi]
            refine ⟨⟨by omega, by omega⟩, by simp [hS, hA], ?_, ?_, ?_⟩
            · intro k hk; rw [hS] at hk; simp at hk
            · intro k hk _ hnone
              interval_cases k
              rw [Nat.add_zero, hfi] at hnone
              exact absurd hnone (by simp)
            · intro _
              exact ⟨by omega, e, by simpa using hfi, hR⟩
    | succ p =>
        cases hfi : fetch i with
        | none =>
            have hA : (visitLoop fetch maxR i (p + 1 + 1)).attempts = 1 := by
              simp [visitLoop, hfi]
            have hS : (visitLoop fetch maxR i (p + 1 + 1)).sleeps = [] := by
              simp [visitLoop, hfi]
            have hR : (visitLoop fetch maxR i (p + 1 + 1)).result = .ok () := by
              simp [visitLoop, hfi]
            refine ⟨⟨by omega, by omega⟩, by simp [hS, hA], ?_, ?_, ?_⟩
            · intro k hk; rw [hS] at hk; simp at hk
            · intro k hk hprev hnone
              rcases Nat.eq_zero_or_pos k with hk0 | hk0
              · subst hk0; exact ⟨hR, by omega⟩
              · exact absurd hfi (by simpa using hprev 0 hk0)
            · intro hall
              exact absurd hfi (by simpa using hall 0 (by omega))
        | some e =>
            obtain ⟨⟨ha1, ha2⟩, hlen, hget, hsucc, hfail⟩ := ih (i + 1) (by omega)
            have hA : (visitLoop fetch maxR i (p + 1 + 1)).attempts
                = (visitLoop fetch maxR (i + 1) (p + 1)).attempts + 1 := by
              simp [visitLoop, hfi]
            have hS : (visitLoop fetch maxR i (p + 1 + 1)).sleeps
                = backoffArgNs i :: (visitLoop fetch maxR (i + 1) (p + 1)).sleeps := by
              simp [visitLoop, hfi]
            have hR : (visitLoop fetch maxR i (p + 1 + 1)).result
                = (visitLoop fetch maxR (i + 1) (p + 1)).result := by
              simp [visitLoop, hfi]
            refine ⟨⟨by omega, by omega⟩,
              by rw [hS, hA]; simp only [List.length_cons, hlen]; omega, ?_, ?_, ?_⟩
            · intro k hk
              have hk2 : k < (backoffArgNs i
                  :: (visitLoop fetch maxR (i + 1) (p + 1)).sleeps).length := by
                rw [← hS]; exact hk
              have hcongr := List.get_of_eq hS ⟨k, hk⟩
              rcases k with _ | q
              · exact hcongr.trans rfl
              · have hq := hget q (by
                  have := hk2
                  simp only [List.length_cons] at this
                  omega)
                have he : i + 1 + q = i + (q + 1) := by omega
                rw [he] at hq
                exact hcongr.trans hq
            · intro k hk hprev hnone
              rcases k with _ | q
              · rw [Nat.add_zero, hfi] at hnone
                exact absurd hnone (by simp)
              · have hq := hsucc q (by omega)
                  (fun m hm => by
                    have hp := hprev (m + 1) (by omega)
                    have he : i + (m + 1) = i + 1 + m := by omega
                    rw [he] at hp
                    exact hp)
                  (by
                    have he : i + 1 + q = i + (q + 1) := by omega
                    rw [he]
                    exact hnone)
                refine ⟨by rw [hR]; exact hq.1, by rw [hA, hq.2]⟩
            · intro hall
              have hq := hfail (fun k hk => by
                have hp := hall (k + 1) (by omega)
                have he : i + (k + 1) = i + 1 + k := by omega
                rw [he] at hp
                exact hp)
              obtain ⟨hatt, e', he', hres⟩ := hq
              refine ⟨by omega, e', ?_, by rw [hR]; exact hres⟩
              have he : i + 1 + (p + 1 - 1) = i + (p + 1 + 1 - 1) := by omega
              rw [← he]
              exact he'

/-- C2 (amended): for every fetch collaborator and every
`maxRetries = n ≥ 1`, `visitWithRetry` performs between 1 and `n`
underlying fetch attempts; it sleeps exactly once after every failed
attempt except the last one performed (so `sleeps.length =
attempts - 1`, and no sleep follows the final attempt); the sleep after
failed attempt `k` is exactly `min(1s * 2^k, 30s)` for every attempt
index `k ≤ 33` (for larger indices the Go `int64` computation of the
backoff overflows, which is what the amendment excludes); it returns
success at the first attempt that succeeds, having performed exactly
that many attempts; and when all `n` attempts fail it returns the
wrapped error carrying `maxRetries` and the last fetch error. -/
theorem visitWithRetry_spec (fetch : Nat → Option Nat) (n : Nat) (hn : 1 ≤ n) :
    (1 ≤ (visitWithRetry fetch n).attempts ∧ (visitWithRetry fetch n).attempts ≤ n) ∧
    (visitWithRetry fetch n).sleeps.length = (visitWithRetry fetch n).attempts - 1 ∧
    (∀ k, (hk : k < (visitWithRetry fetch n).sleeps.length) → k ≤ 33 →
        (visitWithRetry fetch n).sleeps.get ⟨k, hk⟩
          = min ((2 : Int) ^ k * 1000000000) 30000000000) ∧
    (∀ k, k < n → (∀ m, m < k → fetch m ≠ none) → fetch k = none →
        (visitWithRetry fetch n).result = .ok () ∧
        (visitWithRetry fetch n).attempts = k + 1) ∧
    ((∀ k, k < n → fetch k ≠ none) →
        (visitWithRetry fetch n).attempts = n ∧
        ∃ e, fetch (n - 1) = some e ∧
          (visitWithRetry fetch n).result = .error (n, some e)) := by
  obtain ⟨hb, hlen, hget, hsucc, hfail⟩ := visitLoop_spec fetch n n 0 hn
  simp only [Nat.zero_add] at hget hsucc hfail
  refine ⟨hb, hlen, ?_, ?_, ?_⟩
  · intro k hk hk33
    exact (hget k hk).trans (backoffArgNs_eq_min k hk33)
  · intro k hk hprev hnone
    exact hsucc k hk hprev hnone
  · intro hall
    exact hfail hall

/-- Witness for C2: with `maxRetries = 3`, a fetcher failing twice then
succeeding yields success after exactly 3 attempts (with the two sleeps
1s and 2s), and an always-failing fetcher yields the wrapped failure
carrying the last error after exactly 3 attempts. -/
theorem visitWithRetry_spec_witness :
    ((visitWithRetry (fun k => if k < 2 then some 7 else none) 3).result = .ok () ∧
      (visitWithRetry (fun k => if k < 2 then some 7 else none) 3).attempts = 2 + 1) ∧
    ((visitWithRetry (fun _ => some 9) 3).attempts = 3 ∧
      ∃ e, (fun _ : Nat => some 9) (3 - 1) = some e ∧
        (visitWithRetry (fun _ => some 9) 3).result = .error (3, some e)) :=
  ⟨((visitWithRetry_spec (fun k => if k < 2 then some 7 else none) 3 (by omega)).2.2.2.1
      2 (by omega) (fun m hm => by interval_cases m <;> simp) (by simp)),
   ((visitWithRetry_spec (fun _ => some 9) 3 (by omega)).2.2.2.2
      (fun k _ => by simp))⟩

/-- Counterexample to C2 as stated: the claim asserts the sleep after
failed attempt `i` is `min(1s * 2^i, 30s)` for every `maxRetries ≥ 1`.
With `maxRetries = 36` and an always-failing fetcher, the sleep after
failed attempt 34 is not 30s: the Go computation
`time.Duration(math.Pow(2, 34)) * time.Second` overflows `int64`
(2^34 * 10^9 mod 2^64 read as a signed value is negative), the negative
value escapes the `> MaxBackoffDelay` cap, and `time.Sleep` of a
negative duration does not sleep at all. -/
theorem visitWithRetry_backoff_counterexample :
    ((visitWithRetry (fun _ => some 0) 36).sleeps.get? 34
        = some (-1266874889709551616 : Int)) ∧
    ¬ ((visitWithRetry (fun _ => some 0) 36).sleeps.get? 34
        = some (min ((2 : Int) ^ 34 * 1000000000) 30000000000)) := by
  constructor
  · decide
  · decide

/-! ### Page ordering (internal/aggregator/aggregator.go, sortPages) -/

/-- Go byte-wise string comparison `a < b`, modelled as lexicographic
comparison of the character lists (UTF-8 byte order coincides with
code-point order). -/
def goStrLt : List Char → List Char → Bool
  | [], [] => false
  | [], _ :: _ => true
  | _ :: _, [] => false
  | a :: as, b :: bs => if a < b then true else if b < a then false else goStrLt as bs

theorem goStrLt_asymm : ∀ a b : List Char, goStrLt a b = true → goStrLt b a = false
  | [], [], h => by simp [goStrLt] at h
  | [], _ :: _, _ => by simp [goStrLt]
  | _ :: _, [], h => by simp [goStrLt] at h
  | a :: as, b :: bs, h => by
      simp only [goStrLt] at h ⊢
      rcases lt_trichotomy a b with hab | hab | hab
      · rw [if_neg (lt_asymm hab), if_pos hab]
      · subst hab
        rw [if_neg (lt_irrefl a), if_neg (lt_irrefl a)] at h ⊢
        exact goStrLt_asymm as bs h
      · rw [if_neg (lt_asymm hab), if_pos hab] at h
        exact Bool.noConfusion h

theorem goStrLt_conn : ∀ a b : List Char,
    goStrLt a b = false → goStrLt b a = false → a = b
  | [], [], _, _ => rfl
  | [], _ :: _, h, _ => by simp [goStrLt] at h
  | _ :: _, [], _, h2 => by simp [goStrLt] at h2
  | a :: as, b :: bs, h, h2 => by
      simp only [goStrLt] at h h2
      rcases lt_trichotomy a b with hab | hab | hab
      · rw [if_pos hab] at h
        exact Bool.noConfusion h
      · subst hab
        rw [if_neg (lt_irrefl a), if_neg (lt_irrefl a)] at h h2
        rw [goStrLt_conn as bs h h2]
      · rw [if_pos hab] at h2
        exact Bool.noConfusion h2

theorem goStrLt_trans : ∀ a b c : List Char,
    goStrLt a b = true → goStrLt b c = true → goStrLt a c = true
  | [], _, _ :: _, _, _ => by simp [goStrLt]
  | [], b, [], _, h2 => by
      cases b <;> simp [goStrLt] at h2
  | _ :: _, b, [], h, h2 => by
      cases b <;> simp [goStrLt] at h h2
  | a :: as, [], c :: cs, h, _ => by simp [goStrLt] at h
  | a :: as, b :: bs, c :: cs, h, h2 => by
      simp only [goStrLt] at h h2 ⊢
      rcases lt_trichotomy a b with hab | hab | hab
      · rcases lt_trichotomy b c with hbc | hbc | hbc
        · rw [if_pos (lt_trans hab hbc)]
        · rw [if_pos (hbc ▸ hab)]
        · rw [if_neg (lt_asymm hbc), if_pos hbc] at h2
          exact Bool.noConfusion h2
      · subst hab
        rw [if_neg (lt_irrefl a), if_neg (lt_irrefl a)] at h
        rcases lt_trichotomy a c with hac | hac | hac
        · rw [if_pos hac]
        · subst hac
          rw [if_neg (lt_irrefl a), if_neg (lt_irrefl a)] at h2 ⊢
          exact goStrLt_trans as bs cs h h2
        · rw [if_neg (lt_asymm hac), if_pos hac] at h2
          exact Bool.noConfusion h2
      · rw [if_neg (lt_asymm hab), if_pos hab] at h
        exact Bool.noConfusion h

/-- The comparison closure passed to `sort.Slice` in
`Aggregator.sortPages` (aggregator.go lines 97-104): pages compare by
depth first, then by byte-wise URL order. -/
def pageLT (p q : Page) : Bool :=
  if p.Depth ≠ q.Depth then decide (p.Depth < q.Depth) else goStrLt p.URL.data q.URL.data

/-- The non-strict order induced by `pageLT`; `sort.Slice` guarantees
its output is a permutation of the input that is sorted in the sense
that no later element is `pageLT`-below an earlier one. -/
def pageOrd (p q : Page) : Prop := pageLT q p = false

instance : DecidableRel pageOrd := fun p q =>
  inferInstanceAs (Decidable (pageLT q p = false))

instance : IsTotal Page pageOrd := by
  constructor
  intro p q
  by_cases h : pageLT q p = false
  · exact Or.inl h
  · refine Or.inr ?_
    rw [Bool.not_eq_false] at h
    unfold pageOrd pageLT at *
    by_cases hd : q.Depth = p.Depth
    · rw [if_neg (by omega)] at h ⊢
      exact goStrLt_asymm _ _ h
    · rw [if_pos (by omega)] at h
      rw [if_pos (by omega)]
      simp only [decide_eq_true_eq] at h
      simp only [decide_eq_false_iff_not]
      omega

instance : IsTrans Page pageOrd := by
  constructor
  intro p q r hpq hqr
  unfold pageOrd pageLT at *
  by_cases hqp : q.Depth = p.Depth
  · by_cases hrq : r.Depth = q.Depth
    · rw [if_neg (by omega)] at hpq hqr ⊢
      cases hb : goStrLt r.URL.data q.URL.data with
      | true => rw [hb] at hqr; cases hqr
      | false =>
          cases hb2 : goStrLt q.URL.data r.URL.data with
          | true =>
              cases hc : goStrLt r.URL.data p.URL.data with
              | true =>
                  have ht := goStrLt_trans _ _ _ hb2 hc
                  rw [ht] at hpq
                  cases hpq
              | false => rfl
          | false =>
              have he := goStrLt_conn _ _ hb hb2
              rw [he]
              exact hpq
    · rw [if_pos (by omega)] at hqr
      simp only [decide_eq_false_iff_not] at hqr
      by_cases hrp : r.Depth = p.Depth
      · omega
      · rw [if_pos (by omega)]
        simp only [decide_eq_false_iff_not]
        omega
  · rw [if_pos (by omega)] at hpq
    simp only [decide_eq_false_iff_not] at hpq
    by_cases hrq : r.Depth = q.Depth
    · by_cases hrp : r.Depth = p.Depth
      · omega
      · rw [if_pos (by omega)]
        simp only [decide_eq_false_iff_not]
        omega
    · rw [if_pos (by omega)] at hqr
      simp only [decide_eq_false_iff_not] at hqr
      by_cases hrp : r.Depth = p.Depth
      · omega
      · rw [if_pos (by omega)]
        simp only [decide_eq_false_iff_not]
        omega

/-- `Aggregator.sortPages` (aggregator.go lines 97-104).  Go
`sort.Slice` is an unstable comparison sort whose contract is exactly:
the result is a permutation of the input that is sorted for the
supplied `less` closure; it is modelled by a concrete sorting algorithm
over the same comparison. -/
def sortPages (ps : List Page) : List Page :=
  List.insertionSort pageOrd ps

/-- C3: `GenerateOutput` first sorts the page collection with
`sortPages` and then renders the pages in that list order, so the
rendered order is sorted by (depth ascending, URL ascending): the
output is a permutation of the aggregated pages in which no page with a
lexicographically larger (depth, url) key precedes a smaller one; on
the four pages with depths 1,0,0,1 and URLs c,a,b,d the order is
a(0), b(0), c(1), d(1). -/
theorem generateOutput_sorted :
    (∀ ps : List Page,
      (sortPages ps).Perm ps ∧
      (sortPages ps).Pairwise (fun p q => pageLT q p = false)) ∧
    sortPages
        [⟨"https://s/c", "C", "c", 1⟩, ⟨"https://s/a", "A", "a", 0⟩,
         ⟨"https://s/b", "B", "b", 0⟩, ⟨"https://s/d", "D", "d", 1⟩]
      = [⟨"https://s/a", "A", "a", 0⟩, ⟨"https://s/b", "B", "b", 0⟩,
         ⟨"https://s/c", "C", "c", 1⟩, ⟨"https://s/d", "D", "d", 1⟩] := by
  constructor
  · intro ps
    exact ⟨List.perm_insertionSort pageOrd ps, List.sorted_insertionSort pageOrd ps⟩
  · decide

/-! ### Domain allow-list (internal/scraper/scraper.go, isAllowedDomain) -/

/-- `Scraper.isAllowedDomain` (scraper.go lines 169-187), stated on the
host extracted by `url.Parse` (URL parsing is an external stdlib
primitive; a URL that fails to parse is rejected before this logic
runs, and no claim concerns that path). -/
def isAllowedDomain (allowedDomains : List String) (host : String) : Bool :=
  if allowedDomains.isEmpty then
    true
  else
    allowedDomains.any (fun domain =>
      host == domain || ("." ++ domain).data.isSuffixOf host.data)

/-- C4: a URL with host `H` is admitted against allow-list `L` exactly
when `L` is empty, or some `D ∈ L` has `H = D` or `H` ends with the
string `"." ++ D`; in particular a host that merely contains an allowed
domain as a substring is rejected: for `D = "example.com"`,
`notexample.com` is rejected while `docs.example.com` and `example.com`
are accepted. -/
theorem isAllowedDomain_spec :
    (∀ (L : List String) (H : String),
      isAllowedDomain L H = true ↔
        L = [] ∨ ∃ D ∈ L, H = D ∨ ("." ++ D).data <:+ H.data) ∧
    isAllowedDomain ["example.com"] "notexample.com" = false ∧
    isAllowedDomain ["example.com"] "docs.example.com" = true ∧
    isAllowedDomain ["example.com"] "example.com" = true := by
  refine ⟨?_, by decide, by decide, by decide⟩
  intro L H
  unfold isAllowedDomain
  by_cases hL : L.isEmpty
  · rw [if_pos hL]
    simp [List.isEmpty_iff.mp hL]
  · rw [if_neg hL]
    rw [List.any_eq_true]
    constructor
    · rintro ⟨D, hD, hmatch⟩
      refine Or.inr ⟨D, hD, ?_⟩
      rcases Bool.or_eq_true_iff.mp hmatch with h | h
      · exact Or.inl (by simpa using h)
      · exact Or.inr (List.isSuffixOf_iff_suffix.mp h)
    · rintro (hnil | ⟨D, hD, hmatch⟩)
      · exact absurd (by simp [hnil] : L.isEmpty = true) hL
      · refine ⟨D, hD, Bool.or_eq_true_iff.mpr ?_⟩
        rcases hmatch with h | h
        · exact Or.inl (by simpa using h)
        · exact Or.inr (List.isSuffixOf_iff_suffix.mpr h)

/-! ### Link filter (internal/scraper/scraper.go, shouldFollow and
isPrivacyOrLegalURL) -/

/-- The keyword list of `isPrivacyOrLegalURL` (scraper.go lines
191-198), in source order. -/
def skipPatterns : List String :=
  ["privacy", "terms", "legal", "cookies", "gdpr",
   "about", "contact", "support", "careers", "jobs",
   "blog(?!/)", "news", "press", "media",
   "pricing", "enterprise", "commercial", "sales",
   "login", "signup", "register", "account", "profile",
   "404", "error", "maintenance", "status"]

/-- Whether the remainder after a keyword satisfies `($|[/?#])`. -/
def segBoundary : List Char → Bool
  | [] => true
  | c :: _ => c = '/' || c = '?' || c = '#'

/-- Case-insensitively strip the (lower-case) keyword from the front of
the text, returning the rest on success. -/
def stripKeyword : List Char → List Char → Option (List Char)
  | [], rest => some rest
  | _ :: _, [] => none
  | k :: ks, c :: cs => if c.toLower = k then stripKeyword ks cs else none

/-- Whether the regular expression `(?i)/(kw)($|[/?#])` matches
anywhere in the text (the keyword is a plain literal). -/
def matchSegAnywhere (kw : List Char) : List Char → Bool
  | [] => false
  | c :: cs =>
      (c = '/' &&
        (match stripKeyword kw cs with
         | some rest => segBoundary rest
         | none => false)) ||
      matchSegAnywhere kw cs

/-- Whether `needle` occurs as a contiguous subsequence of `hay`. -/
def hasSubseq (needle : List Char) : List Char → Bool
  | [] => needle.isEmpty
  | c :: cs => needle.isPrefixOf (c :: cs) || hasSubseq needle cs

/-- One call `regexp.MatchString("(?i)/(" + pattern + ")($|[/?#])",
urlStr)` with the returned error discarded (scraper.go line 201).  Go
regexp is RE2, which rejects the Perl look-ahead group `(?!` at compile
time; for the one keyword containing it (`blog(?!/)`) the call returns
`(false, err)` and the code keeps `false`.  Every other keyword in
`skipPatterns` is a plain alphanumeric literal and compiles. -/
def goMatchSkipPattern (kw : String) (urlStr : String) : Bool :=
  if hasSubseq "(?!".data kw.data then false
  else matchSegAnywhere kw.data urlStr.data

/-- `Scraper.isPrivacyOrLegalURL` (scraper.go lines 189-206). -/
def isPrivacyOrLegalURL (urlStr : String) : Bool :=
  skipPatterns.any (fun pattern => goMatchSkipPattern pattern urlStr)

/-- `Scraper.shouldFollow` (scraper.go lines 142-167).  The compiled
follow/ignore regexps of the user configuration are external inputs,
abstracted as match predicates. -/
def shouldFollow (ignorePatterns followPatterns : List (String → Bool))
    (urlStr : String) : Bool :=
  if isPrivacyOrLegalURL urlStr then
    false
  else if ignorePatterns.any (fun re => re urlStr) then
    false
  else if !followPatterns.isEmpty then
    followPatterns.any (fun re => re urlStr)
  else
    true

/-- C5: the built-in non-documentation heuristic takes precedence
unconditionally: whenever `isPrivacyOrLegalURL` matches a URL,
`shouldFollow` rejects it for every configuration of ignore and follow
patterns, in particular also when a follow pattern matches the URL and
no ignore pattern does. -/
theorem shouldFollow_heuristic_precedence
    (ignorePatterns followPatterns : List (String → Bool)) (urlStr : String)
    (h : isPrivacyOrLegalURL urlStr = true) :
    shouldFollow ignorePatterns followPatterns urlStr = false := by
  unfold shouldFollow
  rw [if_pos h]

/-- Witness for C5: `https://example.com/privacy` matches the
heuristic and is rejected even though the sole follow pattern matches
it and the ignore list is empty. -/
theorem shouldFollow_heuristic_precedence_witness :
    isPrivacyOrLegalURL "https://example.com/privacy" = true ∧
    (fun _ : String => true) "https://example.com/privacy" = true ∧
    shouldFollow [] [fun _ => true] "https://example.com/privacy" = false :=
  ⟨by decide, rfl,
   shouldFollow_heuristic_precedence [] [fun _ => true]
     "https://example.com/privacy" (by decide)⟩

/-- C6 (code bug): the claim — and the intent documented by the
`skipPatterns` entry `blog(?!/)` — is that `/blog` as a path segment is
rejected by the heuristic.  The code instead never rejects it: `(?!` is
unsupported RE2 syntax, `regexp.MatchString` returns `(false, err)`,
and the error is silently discarded, so the blog pattern is dead.  This
theorem evaluates the model at the failing input: `/blog` is NOT
flagged, `/blogging-guide` is not flagged (as claimed), a privacy URL
is flagged (the other patterns work), and the segment matcher itself
would have matched `/blog` had the pattern compiled. -/
theorem isPrivacyOrLegalURL_blog_dead :
    isPrivacyOrLegalURL "https://example.com/blog" = false ∧
    isPrivacyOrLegalURL "https://example.com/blogging-guide" = false ∧
    isPrivacyOrLegalURL "https://example.com/privacy" = true ∧
    matchSegAnywhere "blog".data "https://example.com/blog".data = true := by
  refine ⟨by decide, by decide, by decide, by decide⟩

/-! ### Title cleanup (internal/scraper/scraper.go, cleanTitle)

The fixed patterns of `cleanTitle` use only these regexp constructs:
case-insensitive literals (under the `(?i)` flag), greedy `\s*`, greedy
`.*`, lazy `.*?` and the end anchor `$`.  They are modelled by a token
list and a backtracking matcher implementing leftmost-first semantics,
which is what Go regexp documents for matching and what
`ReplaceAllString` uses to find successive non-overlapping matches. -/

/-- The RE2 character class `\s`: `[\t\n\f\r ]`. -/
def isRegexSpace (c : Char) : Bool :=
  c = ' ' || c = '\t' || c = '\n' || c = '\x0c' || c = '\r'

/-- `unicode.IsSpace` restricted to ASCII (space, tab, newline,
vertical tab, form feed, carriage return); the inputs modelled here
contain no non-ASCII white space. -/
def isGoUnicodeSpace (c : Char) : Bool :=
  c = ' ' || c = '\t' || c = '\n' || c = '\x0b' || c = '\x0c' || c = '\r'

/-- One token of a fixed `cleanTitle` pattern. -/
inductive RTok where
  | lit (kw : List Char)
  | wsStar
  | dotStarLazy
  | dotStarGreedy
  | eAnchor

/-- Case-insensitively strip a lower-case literal from the front. -/
def stripCI : List Char → List Char → Option (List Char)
  | [], rest => some rest
  | _ :: _, [] => none
  | k :: ks, c :: cs => if c.toLower = k then stripCI ks cs else none

/-- Backtracking matcher, anchored at the start of `s`: returns the
suffix following the first match found in leftmost-first (backtracking)
preference order, greedy stars trying the longest extension first and
lazy stars the shortest.  `fuel` bounds the recursion depth; every call
decreases `(s.length, toks.length)` lexicographically, so a fuel of
`(s.length + 1) * (toks.length + 1) + 1` never runs out. -/
def tryMatch : Nat → List RTok → List Char → Option (List Char)
  | 0, _, _ => none
  | _ + 1, [], s => some s
  | fuel + 1, .lit kw :: ts, s =>
      match stripCI kw s with
      | some rest => tryMatch fuel ts rest
      | none => none
  | fuel + 1, .wsStar :: ts, s =>
      match s with
      | [] => tryMatch fuel ts []
      | c :: cs =>
          if isRegexSpace c then
            match tryMatch fuel (.wsStar :: ts) cs with
            | some r => some r
            | none => tryMatch fuel ts s
          else tryMatch fuel ts s
  | fuel + 1, .dotStarGreedy :: ts, s =>
      match s with
      | [] => tryMatch fuel ts []
      | c :: cs =>
          if c ≠ '\n' then
            match tryMatch fuel (.dotStarGreedy :: ts) cs with
            | some r => some r
            | none => tryMatch fuel ts s
          else tryMatch fuel ts s
  | fuel + 1, .dotStarLazy :: ts, s =>
      match tryMatch fuel ts s with
      | some r => some r
      | none =>
          match s with
          | [] => none
          | c :: cs =>
              if c ≠ '\n' then tryMatch fuel (.dotStarLazy :: ts) cs else none
  | fuel + 1, .eAnchor :: ts, s =>
      match s with
      | [] => tryMatch fuel ts []
      | _ :: _ => none

/-- Anchored match attempt with sufficient fuel. -/
def tryMatchFull (toks : List RTok) (s : List Char) : Option (List Char) :=
  tryMatch ((s.length + 1) * (toks.length + 1) + 1) toks s

/-- Go `re.ReplaceAllString(s, "")`: scan left to right, delete every
leftmost non-overlapping match; an empty-width match deletes nothing
and scanning resumes after the next character (Go `ReplaceAll`
semantics).  All `cleanTitle` replacements use the empty string. -/
def replaceAllEmpty (toks : List RTok) : Nat → List Char → List Char
  | 0, s => s
  | fuel + 1, s =>
      match tryMatchFull toks s with
      | some rest =>
          if rest.length = s.length then
            match s with
            | [] => []
            | c :: cs => c :: replaceAllEmpty toks fuel cs
          else replaceAllEmpty toks fuel rest
      | none =>
          match s with
          | [] => []
          | c :: cs => c :: replaceAllEmpty toks fuel cs

/-- Apply one compiled pattern as `re.ReplaceAllString(acc, "")`. -/
def applyPattern (toks : List RTok) (s : List Char) : List Char :=
  replaceAllEmpty toks (s.length + 1) s

/-- The `statusPatterns` of `cleanTitle` (scraper.go lines 318-322), in
source order, under the `(?i)` flag (literals stored lower-case). -/
def statusPatterns : List (List RTok) :=
  [[.wsStar, .lit "this feature is available in the latest".data,
    .dotStarLazy, .lit "react".data, .wsStar],
   [.wsStar, .lit "this feature is available in the latest canary".data, .wsStar],
   [.wsStar,
    .lit "this feature is available in the latest experimental version of react".data,
    .wsStar]]

/-- The `brandingPatterns` of `cleanTitle` (scraper.go lines 330-338),
in source order, under the `(?i)` flag. -/
def brandingPatterns : List (List RTok) :=
  [[.wsStar, .lit "–".data, .wsStar, .lit "react".data, .wsStar, .eAnchor],
   [.wsStar, .lit "-".data, .wsStar, .lit "react".data, .wsStar, .eAnchor],
   [.wsStar, .lit "|".data, .wsStar, .lit "react".data, .wsStar, .eAnchor],
   [.wsStar, .lit "–".data, .wsStar, .lit "stripe".data, .wsStar, .eAnchor],
   [.wsStar, .lit "-".data, .wsStar, .lit "stripe".data, .wsStar, .eAnchor],
   [.wsStar, .lit "|".data, .wsStar, .lit "stripe".data, .wsStar, .eAnchor],
   [.wsStar, .lit "|".data, .wsStar, .dotStarGreedy,
    .lit "documentation".data, .wsStar, .eAnchor],
   [.wsStar, .lit "|".data, .wsStar, .dotStarGreedy,
    .lit "docs".data, .wsStar, .eAnchor]]

/-- Phase (a) of `cleanTitle`: strip the feature-availability
boilerplate phrases. -/
def stripStatusPhrases (s : List Char) : List Char :=
  statusPatterns.foldl (fun acc p => applyPattern p acc) s

/-- Phase (b) of `cleanTitle`: strip trailing site-branding suffixes. -/
def stripBrandingSuffixes (s : List Char) : List Char :=
  brandingPatterns.foldl (fun acc p => applyPattern p acc) s

/-- `strings.Fields`: split around runs of white space. -/
def fieldsGo (acc : List Char) : List Char → List (List Char)
  | [] => if acc.isEmpty then [] else [acc.reverse]
  | c :: cs =>
      if isGoUnicodeSpace c then
        if acc.isEmpty then fieldsGo [] cs else acc.reverse :: fieldsGo [] cs
      else fieldsGo (c :: acc) cs

def fieldsList (s : List Char) : List (List Char) := fieldsGo [] s

/-- `strings.EqualFold` for the ASCII case folding relevant here. -/
def eqFold (a b : List Char) : Bool :=
  a.map Char.toLower == b.map Char.toLower

/-- The deduplication loop of `cleanTitle` (scraper.go lines 347-353):
word `i` is kept iff `i = 0` or it does not case-fold-equal word
`i - 1` of the original word list. -/
def dedupGo (prev : List Char) : List (List Char) → List (List Char)
  | [] => []
  | x :: xs => if eqFold x prev then dedupGo x xs else x :: dedupGo x xs

def dedupAdjacent : List (List Char) → List (List Char)
  | [] => []
  | w :: ws => w :: dedupGo w ws

/-- `strings.TrimSpace`. -/
def trimSpaceL (s : List Char) : List Char :=
  ((s.dropWhile isGoUnicodeSpace).reverse.dropWhile isGoUnicodeSpace).reverse

/-- Phase (c) of `cleanTitle`: collapse immediately repeated
case-insensitive duplicate words (`strings.Fields` then the dedup loop
then `strings.Join(..., " ")`). -/
def collapseRepeatedWords (s : List Char) : List Char :=
  List.intercalate [' '] (dedupAdjacent (fieldsList s))

/-- `Scraper.cleanTitle` (scraper.go lines 313-357): status-phrase
stripping, then branding stripping, then adjacent-duplicate collapse,
then a final `TrimSpace`. -/
def cleanTitle (title : String) : String :=
  String.mk (trimSpaceL (collapseRepeatedWords
    (stripBrandingSuffixes (stripStatusPhrases title.data))))

theorem dedupGo_chain (l : List (List Char)) :
    ∀ prev c, eqFold c prev = true →
      List.Chain' (fun a b => eqFold a b = false) (c :: dedupGo prev l) := by
  induction l with
  | nil =>
      intro prev c _
      simp [dedupGo]
  | cons x xs ih =>
      intro prev c hc
      unfold dedupGo
      by_cases hx : eqFold x prev = true
      · rw [if_pos hx]
        refine ih x c ?_
        unfold eqFold at *
        rw [beq_iff_eq] at *
        rw [hc, ← hx]
      · rw [if_neg hx]
        have hcx : eqFold c x = false := by
          unfold eqFold at *
          rw [beq_iff_eq] at hc
          rw [Bool.eq_false_iff]
          intro hfold
          rw [beq_iff_eq] at hfold
          exact hx (by rw [beq_iff_eq, ← hfold, hc])
        exact List.Chain'.cons hcx (ih x x (by unfold eqFold; rw [beq_iff_eq]))

theorem dedupAdjacent_chain (ws : List (List Char)) :
    List.Chain' (fun a b => eqFold a b = false) (dedupAdjacent ws) := by
  cases ws with
  | nil => simp [dedupAdjacent]
  | cons w ws =>
      exact dedupGo_chain ws w w (by unfold eqFold; rw [beq_iff_eq])

/-- C7: `cleanTitle` first strips the feature-availability boilerplate,
then strips trailing site-branding suffixes, then collapses immediately
repeated case-insensitive duplicate words.  On the claimed input the
phases produce "useEffect – React", then "useEffect", and the final
result is exactly "useEffect".  The collapse phase leaves no adjacent
case-fold-equal pair (for every word list), collapses adjacent
duplicates ("Intro Intro to Docs Docs" becomes "Intro to Docs") and
keeps duplicates separated by other words ("go stop go" unchanged). -/
theorem cleanTitle_spec :
    cleanTitle ("useEffect – React This feature is available in the latest "
        ++ "Experimental version of React") = "useEffect" ∧
    String.mk (stripStatusPhrases ("useEffect – React This feature is available "
        ++ "in the latest Experimental version of React").data)
      = "useEffect – React" ∧
    String.mk (stripBrandingSuffixes "useEffect – React".data) = "useEffect" ∧
    cleanTitle "Intro Intro to Docs Docs" = "Intro to Docs" ∧
    cleanTitle "go stop go" = "go stop go" ∧
    ∀ ws : List (List Char),
      (dedupAdjacent ws).Chain' (fun a b => eqFold a b = false) := by
  refine ⟨by decide, by decide, by decide, by decide, by decide, dedupAdjacent_chain⟩

/-! ### Anchor slugs (internal/aggregator/aggregator.go, createAnchor) -/

/-- The characters removed by the `strings.ReplaceAll(_, c, "")` calls
of `createAnchor` (aggregator.go lines 130-157), in source order.  The
list is fixed; characters outside it (for example the underscore) are
not removed. -/
def anchorRemovedChars : List Char :=
  ['.', '(', ')', '/', '\\', ':', ';', '?', '!', '@', '#', '$', '%', '^',
   '&', '*', '+', '=', '[', ']', '\x7b', '\x7d', '|', '\x22', '\x27', '<', '>', ',']

/-- Whether the text contains two adjacent hyphens
(`strings.Contains(anchor, "--")`). -/
def hasDoubleDash : List Char → Bool
  | [] => false
  | [_] => false
  | a :: b :: rest => (a = '-' && b = '-') || hasDoubleDash (b :: rest)

/-- One `strings.ReplaceAll(anchor, "--", "-")` pass: leftmost
non-overlapping replacement. -/
def dashPass : List Char → List Char
  | [] => []
  | [c] => [c]
  | a :: b :: rest =>
      if a = '-' ∧ b = '-' then '-' :: dashPass rest
      else a :: dashPass (b :: rest)

/-- The collapse loop `for strings.Contains(anchor, "--")` of
`createAnchor` (aggregator.go lines 159-161); each pass with a double
dash present strictly shortens the text, so a fuel of the initial
length always reaches the fixed point. -/
def collapseLoop : Nat → List Char → List Char
  | 0, s => s
  | fuel + 1, s => if hasDoubleDash s then collapseLoop fuel (dashPass s) else s

def startsWithDash : List Char → Bool
  | [] => false
  | c :: _ => c = '-'

def endsWithDash (s : List Char) : Bool := startsWithDash s.reverse

/-- `strings.Trim(anchor, "-")`. -/
def trimDashes (s : List Char) : List Char :=
  ((s.dropWhile (fun c => c = '-')).reverse.dropWhile (fun c => c = '-')).reverse

/-- The space and punctuation replacement phase of `createAnchor`
(aggregator.go lines 128-157): lower-case, spaces to hyphens, and the
sequential single-character removals, which commute and are modelled by
one filter over the list of removed characters. -/
def anchorPreprocessed (title : String) : List Char :=
  ((title.data.map Char.toLower).map (fun c => if c = ' ' then '-' else c)).filter
    (fun c => !(anchorRemovedChars.contains c))

/-- `Aggregator.createAnchor` (aggregator.go lines 127-166). -/
def createAnchor (title : String) : String :=
  String.mk (trimDashes
    (collapseLoop (anchorPreprocessed title).length (anchorPreprocessed title)))

theorem dashPass_length_le : ∀ s : List Char, (dashPass s).length ≤ s.length
  | [] => by simp [dashPass]
  | [c] => by simp [dashPass]
  | a :: b :: rest => by
      unfold dashPass
      by_cases hab : a = '-' ∧ b = '-'
      · rw [if_pos hab]
        simp only [List.length_cons]
        have := dashPass_length_le rest
        omega
      · rw [if_neg hab]
        simp only [List.length_cons]
        have := dashPass_length_le (b :: rest)
        simp only [List.length_cons] at this
        omega

theorem dashPass_length_lt :
    ∀ s : List Char, hasDoubleDash s = true → (dashPass s).length < s.length
  | [], h => by simp [hasDoubleDash] at h
  | [_], h => by simp [hasDoubleDash] at h
  | a :: b :: rest, h => by
      simp only [hasDoubleDash, Bool.or_eq_true, Bool.and_eq_true, decide_eq_true_eq] at h
      unfold dashPass
      by_cases hab : a = '-' ∧ b = '-'
      · rw [if_pos hab]
        simp only [List.length_cons]
        have := dashPass_length_le rest
        omega
      · rw [if_neg hab]
        simp only [List.length_cons]
        have hd : hasDoubleDash (b :: rest) = true := by
          rcases h with h | h
          · exact absurd ⟨h.1, h.2⟩ hab
          · exact h
        have := dashPass_length_lt (b :: rest) hd
        simp only [List.length_cons] at this
        omega

theorem collapseLoop_no_doubleDash :
    ∀ (fuel : Nat) (s : List Char), s.length ≤ fuel →
      hasDoubleDash (collapseLoop fuel s) = false
  | 0, s, h => by
      have hs : s = [] := List.eq_nil_of_length_eq_zero (by omega)
      subst hs
      simp [collapseLoop, hasDoubleDash]
  | fuel + 1, s, h => by
      unfold collapseLoop
      by_cases hd : hasDoubleDash s = true
      · rw [if_pos hd]
        exact collapseLoop_no_doubleDash fuel (dashPass s)
          (by have := dashPass_length_lt s hd; omega)
      · rw [if_neg hd]
        exact Bool.not_eq_true _ ▸ hd

/-- Adjacent-pair predicate used to transfer the double-dash property
through suffixes and reversal. -/
def noTwoDash (a b : Char) : Prop := ¬(a = '-' ∧ b = '-')

theorem hasDoubleDash_eq_false_iff_chain :
    ∀ s : List Char, hasDoubleDash s = false ↔ s.Chain' noTwoDash
  | [] => by simp [hasDoubleDash]
  | [c] => by simp [hasDoubleDash]
  | a :: b :: rest => by
      simp only [hasDoubleDash, Bool.or_eq_false_iff, Bool.and_eq_false_iff]
      rw [hasDoubleDash_eq_false_iff_chain (b :: rest)]
      rw [List.chain'_cons]
      unfold noTwoDash
      constructor
      · rintro ⟨h1, h2⟩
        refine ⟨?_, h2⟩
        rintro ⟨ha, hb⟩
        rcases h1 with h | h
        · simp [ha] at h
        · simp [hb] at h
      · rintro ⟨h1, h2⟩
        refine ⟨?_, h2⟩
        by_cases ha : a = '-'
        · by_cases hb : b = '-'
          · exact absurd ⟨ha, hb⟩ h1
          · exact Or.inr (by simp [hb])
        · exact Or.inl (by simp [ha])

theorem chain'_noTwoDash_reverse {s : List Char} (h : s.Chain' noTwoDash) :
    s.reverse.Chain' noTwoDash := by
  rw [List.chain'_reverse]
  refine h.imp ?_
  intro a b hab
  unfold noTwoDash flip at *
  tauto

theorem trimDashes_no_doubleDash {s : List Char} (h : hasDoubleDash s = false) :
    hasDoubleDash (trimDashes s) = false := by
  rw [hasDoubleDash_eq_false_iff_chain] at h ⊢
  unfold trimDashes
  refine chain'_noTwoDash_reverse ?_
  refine List.Chain'.suffix ?_ (List.dropWhile_suffix _)
  refine chain'_noTwoDash_reverse ?_
  exact List.Chain'.suffix h (List.dropWhile_suffix _)

theorem dropWhile_head_not {p : Char → Bool} :
    ∀ s : List Char, ∀ c, (s.dropWhile p).head? = some c → p c = false
  | [], c, h => by simp [List.dropWhile] at h
  | a :: rest, c, h => by
      rw [List.dropWhile_cons] at h
      by_cases ha : p a = true
      · rw [if_pos ha] at h
        exact dropWhile_head_not rest c h
      · rw [if_neg ha] at h
        simp only [List.head?_cons, Option.some_inj] at h
        subst h
        exact Bool.not_eq_true _ ▸ ha

theorem trimDashes_not_endsWithDash (s : List Char) :
    endsWithDash (trimDashes s) = false := by
  unfold endsWithDash trimDashes
  rw [List.reverse_reverse]
  cases hh : (s.dropWhile (fun c => c = '-')).reverse.dropWhile (fun c => c = '-') with
  | nil => simp [startsWithDash]
  | cons c rest =>
      unfold startsWithDash
      have hp := dropWhile_head_not ((s.dropWhile (fun c => c = '-')).reverse) c
        (by rw [hh]; rfl)
      simpa using hp

theorem trimDashes_not_startsWithDash (s : List Char) :
    startsWithDash (trimDashes s) = false := by
  unfold trimDashes
  cases hh : ((s.dropWhile (fun c => c = '-')).reverse.dropWhile
      (fun c => c = '-')).reverse with
  | nil => simp [startsWithDash]
  | cons c rest =>
      unfold startsWithDash
      have hpre : ((s.dropWhile (fun c => c = '-')).reverse.dropWhile
          (fun c => c = '-')).reverse <+: s.dropWhile (fun c => c = '-') := by
        have hsuf := List.dropWhile_suffix
          (l := (s.dropWhile (fun c => c = '-')).reverse) (fun c => c = '-')
        have := List.reverse_prefix.mpr hsuf
        rwa [List.reverse_reverse] at this
      obtain ⟨w, hw⟩ := hpre
      rw [hh] at hw
      have hhead : (s.dropWhile (fun c => c = '-')).head? = some c := by
        rw [← hw]
        rfl
      have hp := dropWhile_head_not s c hhead
      simpa using hp

/-- C8 (amended): `createAnchor` lower-cases the title, turns spaces
into hyphens, removes the characters of its fixed punctuation list
(underscore and characters outside the list are retained), collapses
every run of hyphens and trims leading and trailing hyphens, so the
result never contains "--" and never starts or ends with "-"; on
"What is React? (A Guide)" it yields exactly "what-is-react-a-guide". -/
theorem createAnchor_spec :
    (∀ title : String,
      hasDoubleDash (createAnchor title).data = false ∧
      startsWithDash (createAnchor title).data = false ∧
      endsWithDash (createAnchor title).data = false) ∧
    createAnchor "What is React? (A Guide)" = "what-is-react-a-guide" := by
  constructor
  · intro title
    refine ⟨?_, ?_, ?_⟩
    · show hasDoubleDash (trimDashes (collapseLoop (anchorPreprocessed title).length
        (anchorPreprocessed title))) = false
      exact trimDashes_no_doubleDash
        (collapseLoop_no_doubleDash _ _ (le_refl _))
    · show startsWithDash (trimDashes (collapseLoop (anchorPreprocessed title).length
        (anchorPreprocessed title))) = false
      exact trimDashes_not_startsWithDash _
    · show endsWithDash (trimDashes (collapseLoop (anchorPreprocessed title).length
        (anchorPreprocessed title))) = false
      exact trimDashes_not_endsWithDash _
  · decide

/-- Counterexample to C8 as stated: the claim says all punctuation
characters are removed, but the removal list of `createAnchor` is fixed
and omits, for example, the underscore (Unicode punctuation, category
Pc): `createAnchor "a_b"` keeps the underscore. -/
theorem createAnchor_underscore_counterexample :
    createAnchor "a_b" = "a_b" ∧ '_' ∈ (createAnchor "a_b").data := by
  exact ⟨by decide, by decide⟩

/-! ### Sanitizer configuration (internal/converter/converter.go,
createSanitizer) -/

/-- One allowance added to a bluemonday policy: either a set of allowed
elements or a set of attributes allowed on given elements. -/
inductive PolicyRule where
  | allowElements (names : List String)
  | allowAttrsOn (attrs : List String) (elems : List String)
deriving DecidableEq, BEq

/-- The allowances `Converter.createSanitizer` (converter.go lines
32-53) adds on top of the external `bluemonday.UGCPolicy()` base, in
source order and under the two configuration toggles
`Output.PreserveImages` and `Output.InlineStyles`. -/
def createSanitizerRules (preserveImages inlineStyles : Bool) : List PolicyRule :=
  [.allowElements ["pre", "code", "blockquote", "h1", "h2", "h3", "h4", "h5", "h6"],
   .allowElements ["table", "thead", "tbody", "tr", "th", "td"],
   .allowElements ["ul", "ol", "li", "dl", "dt", "dd"],
   .allowElements ["p", "br", "hr", "div", "span"],
   .allowElements ["strong", "b", "em", "i", "u", "s", "del", "ins"],
   .allowElements ["a"], .allowAttrsOn ["href", "title"] ["a"]]
  ++ (if preserveImages then
        [.allowElements ["img"],
         .allowAttrsOn ["src", "alt", "title", "width", "height"] ["img"]]
      else [])
  ++ [.allowAttrsOn ["class"] ["pre", "code"]]
  ++ (if !inlineStyles then [.allowAttrsOn ["style"] ["*"]] else [])

/-- `Converter.createSanitizer`: the external UGC base policy followed
by the configuration-dependent allowances. -/
def createSanitizer (ugcBase : List PolicyRule)
    (preserveImages inlineStyles : Bool) : List PolicyRule :=
  ugcBase ++ createSanitizerRules preserveImages inlineStyles

/-- C9 (code bug): the claim says inline `style` attributes are
retained iff the inline-styles option is enabled, and that with both
options disabled images and style attributes are stripped.  The code
has the condition inverted (`if !c.config.Output.InlineStyles`): with
`InlineStyles = false` — the value in every shipped configuration — the
global style-attribute allowance IS added, and with `InlineStyles =
true` it is not.  The image toggle behaves as claimed: the img
allowances are added iff `PreserveImages` is true. -/
theorem createSanitizer_styleToggle_inverted :
    (createSanitizerRules false false).contains
        (.allowAttrsOn ["style"] ["*"]) = true ∧
    (createSanitizerRules false true).contains
        (.allowAttrsOn ["style"] ["*"]) = false ∧
    (createSanitizerRules false false).contains
        (.allowElements ["img"]) = false ∧
    (createSanitizerRules true false).contains
        (.allowElements ["img"]) = true ∧
    (createSanitizerRules true false).contains
        (.allowAttrsOn ["src", "alt", "title", "width", "height"] ["img"]) = true := by
  refine ⟨by decide, by decide, by decide, by decide, by decide⟩

/-! ### Heading-title fallback and table of contents
(internal/aggregator/aggregator.go, writeContent, writeTableOfContents,
extractTitleFromURL, titleCase) -/

/-- `strings.Split` with a single-character separator. -/
def splitChar (sep : Char) : List Char → List (List Char)
  | [] => [[]]
  | c :: cs =>
      if c = sep then [] :: splitChar sep cs
      else
        match splitChar sep cs with
        | [] => [[c]]
        | h :: t => (c :: h) :: t

/-- `titleCase` (aggregator.go lines 233-241): split into fields,
upper-case the first character of each word, lower-case the rest, join
with single spaces (ASCII model of `unicode.ToUpper`/`strings.ToLower`;
the Go code indexes `word[0]` as a byte, which agrees for ASCII). -/
def titleCaseL (s : List Char) : List Char :=
  List.intercalate [' ']
    ((fieldsList s).map (fun w =>
      match w with
      | [] => []
      | c :: cs => c.toUpper :: cs.map Char.toLower))

/-- `Aggregator.extractTitleFromURL` (aggregator.go lines 199-216):
take the last `/`-separated part; if it is empty and there are at least
two parts, take the second-to-last part instead; if the chosen part is
non-empty, replace hyphens and underscores by spaces and title-case it,
otherwise return "Untitled". -/
def extractTitleFromURL (url : String) : String :=
  let parts := splitChar '/' url.data
  if 0 < parts.length then
    let lastPart := parts.getD (parts.length - 1) []
    let chosen :=
      if lastPart = [] ∧ 1 < parts.length then parts.getD (parts.length - 2) []
      else lastPart
    if chosen ≠ [] then
      String.mk (titleCaseL ((chosen.map (fun c => if c = '-' then ' ' else c)).map
        (fun c => if c = '_' then ' ' else c)))
    else "Untitled"
  else "Untitled"

/-- The heading title chosen by `writeContent` (aggregator.go lines
174-177): the stored title unless it is empty or "Untitled", in which
case the URL-derived title is used. -/
def pageHeadingTitle (p : Page) : String :=
  if p.Title = "" ∨ p.Title = "Untitled" then extractTitleFromURL p.URL else p.Title

/-- Heading level `min(depth + 1, 6)` (aggregator.go lines 179-182). -/
def headingLevel (d : Nat) : Nat := if d + 1 > 6 then 6 else d + 1

def trimSpaceStr (s : String) : String := String.mk (trimSpaceL s.data)

/-- One page section of `writeContent` (aggregator.go lines 174-195). -/
def pageBlock (includeMetadata : Bool) (p : Page) : String :=
  String.mk (List.replicate (headingLevel p.Depth) '#') ++ " " ++ pageHeadingTitle p
    ++ "\n\n"
    ++ (if includeMetadata then "*Source: [" ++ p.URL ++ "](" ++ p.URL ++ ")*\n\n" else "")
    ++ (if trimSpaceStr p.Content ≠ "" then trimSpaceStr p.Content ++ "\n" else "")

def writeContentGo (includeMetadata : Bool) : Bool → List Page → String
  | _, [] => ""
  | isFirst, p :: ps =>
      (if isFirst then "" else "\n\n---\n\n") ++ pageBlock includeMetadata p
        ++ writeContentGo includeMetadata false ps

/-- `Aggregator.writeContent` (aggregator.go lines 168-197): the page
sections separated by horizontal rules. -/
def writeContent (includeMetadata : Bool) (pages : List Page) : String :=
  writeContentGo includeMetadata true pages

/-- `strings.Repeat("  ", depth)`. -/
def indentStr (d : Nat) : String := String.mk (List.flatten (List.replicate d [' ', ' ']))

/-- One entry of the table of contents (aggregator.go lines 118-122);
it uses the STORED page title, not the heading fallback. -/
def tocLine (p : Page) : String :=
  indentStr p.Depth ++ "- [" ++ p.Title ++ "](#" ++ createAnchor p.Title ++ ")\n"

/-- `Aggregator.writeTableOfContents` (aggregator.go lines 115-125). -/
def writeTableOfContents (pages : List Page) : String :=
  "## Table of Contents\n\n" ++ String.join (pages.map tocLine) ++ "\n---\n\n"

/-- C10 (amended): in the rendered body, a page whose stored title is
empty or exactly "Untitled" gets its heading from
`extractTitleFromURL`, which derives it from the final path segment —
or the segment before it when the final one is empty — with hyphens and
underscores turned into spaces and each word title-cased, returning
"Untitled" when the examined segment(s) are empty; any other stored
title is kept.  The table-of-contents entry always uses the stored
title, so heading and TOC entry differ for such pages: the concrete
page below renders heading "# Getting Started" while its TOC entry is
"- [](#)". -/
theorem writeContent_title_fallback :
    (∀ p : Page, (p.Title = "" ∨ p.Title = "Untitled") →
      pageHeadingTitle p = extractTitleFromURL p.URL) ∧
    (∀ p : Page, ¬(p.Title = "" ∨ p.Title = "Untitled") →
      pageHeadingTitle p = p.Title) ∧
    extractTitleFromURL "https://example.com/getting-started" = "Getting Started" ∧
    extractTitleFromURL "https://example.com/docs/" = "Docs" ∧
    extractTitleFromURL "" = "Untitled" ∧
    writeContent false [⟨"https://example.com/getting-started", "", "Body", 0⟩]
      = "# Getting Started\n\nBody\n" ∧
    writeTableOfContents [⟨"https://example.com/getting-started", "", "Body", 0⟩]
      = "## Table of Contents\n\n- [](#)\n\n---\n\n" := by
  refine ⟨?_, ?_, by decide, by decide, by decide, by decide, by decide⟩
  · intro p hp
    unfold pageHeadingTitle
    rw [if_pos hp]
  · intro p hp
    unfold pageHeadingTitle
    rw [if_neg hp]

/-- Witness for C10: the fallback fires on an empty stored title and
does not fire on a regular one. -/
theorem writeContent_title_fallback_witness :
    pageHeadingTitle ⟨"https://example.com/a-b", "", "x", 0⟩
        = extractTitleFromURL "https://example.com/a-b" ∧
    pageHeadingTitle ⟨"https://example.com/a-b", "Kept Title", "x", 0⟩ = "Kept Title" :=
  ⟨writeContent_title_fallback.1 ⟨"https://example.com/a-b", "", "x", 0⟩ (Or.inl rfl),
   writeContent_title_fallback.2.1 ⟨"https://example.com/a-b", "Kept Title", "x", 0⟩
     (by decide)⟩

/-- Counterexample to C10 as stated: the claim says the heading falls
back to "Untitled" only when NO non-empty path segment exists.  The
code only ever examines the last segment and, when that is empty, the
one before it: for `https://example.com/docs//` both are empty and the
code returns "Untitled" although the non-empty segment "docs" exists
(the claim would require "Docs"). -/
theorem extractTitleFromURL_counterexample :
    extractTitleFromURL "https://example.com/docs//" = "Untitled" ∧
    splitChar '/' "https://example.com/docs//".data
      = ["https:".data, "".data, "example.com".data, "docs".data, "".data, "".data] := by
  exact ⟨by decide, by decide⟩

end Markdocify
